import Mathlib

/-!
Verification of the redis-janitor reconciliation core.

This file gives a shallow embedding of the class `RedisJanitor`
(file redis_janitor/janitors.py) and proves / refutes the frozen claims
about it.

Modelling conventions:
* Python strings are Lean `String`s; the Python string operations used by
  the source (`split`, `startswith`, `lower`) are defined below by explicit
  recursion on the character list, with the exact semantics of the Python
  operation (for a non-empty separator).
* Times are integers (seconds).  `datetime.datetime.now(pytz.UTC)` becomes
  the field `now` of an explicit environment; parsing of a timestamp string
  (`dateutil.parser.parse`, an external library) becomes the environment's
  `parse` function.
* The redis store is a pair of association lists: job-record hashes and
  lists (queues).  `lrem`, `lpush`, `lrange`, `scan_iter`, `hmget` are
  modelled with redis semantics.  A list key holding the empty list is
  observationally identical to an absent key for every operation used by
  the janitor (`lrange` of a missing key is empty), so empty lists are kept
  in place instead of being deleted.
* The kubernetes client is fallible: the environment provides the outcome
  of the `list_pod_for_all_namespaces` API call as an `Except`, and the
  janitor's wrapper catches the failure exactly as the `try/except` in the
  source does.
* Methods that mutate `self` take and return the `RedisJanitor` record;
  methods that can raise (`update_pods` raises `ValueError` on a corrupted
  timestamp) return `Except String`.
-/

namespace RedisJanitorModel

/-! ### Python string primitives -/

/-- Python `s.split(sep)` for a non-empty separator `sep = c0 :: cr`,
on character lists.  Matches Python semantics: leftmost, non-overlapping,
adjacent separators produce empty pieces, and the empty string yields
one empty piece.  The `fuel` argument makes the recursion structural
(so that terms reduce); any `fuel` at least the length of the input
gives the intended semantics. -/
def pySplitAux (c0 : Char) (cr : List Char) : Nat → List Char → List (List Char)
  | _, [] => [[]]
  | 0, cs => [cs]
  | fuel + 1, c :: cs =>
    if (c0 :: cr).isPrefixOf (c :: cs) then
      [] :: pySplitAux c0 cr fuel (cs.drop cr.length)
    else
      match pySplitAux c0 cr fuel cs with
      | [] => [[c]]
      | h :: t => (c :: h) :: t

/-- Python `s.split(sep)` on strings (separator assumed non-empty, which is
true of both uses in the source: `':'` and `'processing-'`). -/
def pySplit (sep : String) (s : String) : List String :=
  match sep.data with
  | [] => [s]
  | c0 :: cr => (pySplitAux c0 cr s.data.length s.data).map List.asString

/-- Python `s.startswith(p)`. -/
def pyStartsWith (p : String) (s : String) : Bool :=
  p.data.isPrefixOf s.data

/-- Python `s.lower()` (ASCII use only in the source). -/
def pyLower (s : String) : String :=
  (s.data.map Char.toLower).asString

example : pySplit ":" "processing-q:pod" = ["processing-q", "pod"] := by decide
example : pySplit "processing-" "processing-q" = ["", "q"] := by decide
example : pySplit ":" "" = [""] := by decide
example : pySplit ":" "a::b" = ["a", "", "b"] := by decide

/-! ### Time values and the call environment -/

/-- The value held by `pods_updated_at`: either a `datetime.datetime`
(an instant, in seconds) or some other, corrupted value (the source
raises `ValueError` on it). -/
inductive TimeVal where
  | dt (t : Int) : TimeVal
  | corrupt : TimeVal
deriving DecidableEq, Repr

/-- One pod as reported by the cluster: `(metadata.name, status.phase)`. -/
abbrev PodInfo := String × String

/-- The ambient world of one janitor call: the current UTC instant,
the timestamp parser (`dateutil.parser.parse`), and the outcome of the
kubernetes `list_pod_for_all_namespaces` API call (`Except.error` models
an `ApiException` being thrown). -/
structure Env where
  now : Int
  parse : String → Int
  api : Except Unit (List PodInfo)

/-! ### The redis store -/

/-- The fields of a job-record hash that the janitor reads
(`status`, `updated_at`, `updated_by`); a missing field is `none`,
an empty string is falsy exactly as in Python. -/
structure JobRecord where
  status : Option String
  updated_at : Option String
  updated_by : Option String
deriving DecidableEq, Repr

/-- The redis database: job-record hashes and lists (queues), keyed by
name. -/
structure Store where
  hashes : List (String × JobRecord)
  lists : List (String × List String)
deriving DecidableEq, Repr

/-- Python truthiness of an optional string (`None` and `''` are falsy). -/
def truthy : Option String → Bool
  | none => false
  | some v => !(v == "")

/-- Look a key up among the lists (queues) of the store. -/
def Store.getListOpt (s : Store) (q : String) : Option (List String) :=
  s.lists.lookup q

/-- `lrange q 0 -1`: the whole list at `q`, empty if the key is absent. -/
def Store.getList (s : Store) (q : String) : List String :=
  (s.getListOpt q).getD []

/-- Rebind key `q` to `l` in an association list (all occurrences). -/
def overwrite (q : String) (l : List String) :
    List (String × List String) → List (String × List String)
  | [] => []
  | (k, v) :: rest =>
    if k = q then (q, l) :: overwrite q l rest else (k, v) :: overwrite q l rest

/-- Replace the binding of list key `q` (or create it). -/
def Store.setList (s : Store) (q : String) (l : List String) : Store :=
  if (s.lists.lookup q).isSome then
    { s with lists := overwrite q l s.lists }
  else
    { s with lists := s.lists ++ [(q, l)] }

/-- redis `lrem q 1 v`: remove the first occurrence of `v` from the list
at `q`; returns the updated store and whether an element was removed
(the count returned by redis, which is 0 or 1 here). -/
def Store.lrem1 (s : Store) (q v : String) : Store × Bool :=
  match s.getListOpt q with
  | none => (s, false)
  | some l => if v ∈ l then (s.setList q (l.erase v), true) else (s, false)

/-- redis `lpush q v`: prepend `v` to the list at `q`, creating it if
needed. -/
def Store.lpush (s : Store) (q v : String) : Store :=
  s.setList q (v :: s.getList q)

/-- Look a job-record hash up by key. -/
def Store.getRecord (s : Store) (k : String) : Option JobRecord :=
  s.hashes.lookup k

/-- redis `hmget key status updated_at updated_by`: the three field values,
`none` for a missing field or a missing key. -/
def Store.hmget3 (s : Store) (k : String) :
    Option String × Option String × Option String :=
  match s.getRecord k with
  | none => (none, none, none)
  | some r => (r.status, r.updated_at, r.updated_by)

/-- All keys of the store (redis has a single keyspace). -/
def Store.allKeys (s : Store) : List String :=
  s.lists.map Prod.fst ++ s.hashes.map Prod.fst

/-- redis `scan_iter(match='pat*')`: the keys that start with `pat`. -/
def Store.scanMatch (s : Store) (pat : String) : List String :=
  s.allKeys.filter (fun k => pyStartsWith pat k)

/-! ### The janitor -/

/-- The state of a `RedisJanitor` instance (the fields of `self` that the
reconciliation logic reads or writes; the redis client and the logger are
factored out). -/
structure Janitor where
  backoff : Int
  queues : List String
  namespace_name : String
  stale_time : Int
  pod_refresh_interval : Int
  pods : List PodInfo
  pods_updated_at : Option TimeVal
  whitelisted_pods : List String
  valid_pod_phases : List String
  total_repairs : Nat
  processing_queues : List String
  cleaning_queue : String
deriving DecidableEq, Repr

/-- `RedisJanitor.__init__`. -/
def Janitor.init (queue : String) (queue_delimiter : String := ",")
    (namespace_name : String := "default") (backoff : Int := 3)
    (stale_time : Int := 600) (pod_refresh_interval : Int := 5) : Janitor :=
  let queues := pySplit queue_delimiter (pyLower queue)
  { backoff := backoff
    queues := queues
    namespace_name := namespace_name
    stale_time := stale_time
    pod_refresh_interval := pod_refresh_interval
    pods := []
    pods_updated_at := none
    whitelisted_pods := ["zip-consumer"]
    valid_pod_phases := ["Running"]
    total_repairs := 0
    processing_queues :=
      queues.foldr (fun q acc => ("processing-" ++ q) ::
        ("processing-" ++ q ++ "-zip") :: acc) []
    cleaning_queue := "" }

/-- Python `dict` built from a list of pairs, looked up with `.get`:
the last binding of a name wins. -/
def dictGet (m : List PodInfo) (k : String) : Option String :=
  m.foldl (fun acc p => if p.1 = k then some p.2 else acc) none

/-- `list_pod_for_all_namespaces`: the kubernetes call wrapped in
`try/except ApiException`; a failure is logged and yields `[]` instead of
propagating. -/
def list_pod_for_all_namespaces (env : Env) : List PodInfo :=
  match env.api with
  | .error _ => []
  | .ok pods => pods

/-- `_update_pods`: refresh pod data and update the timestamp. -/
def Janitor.update_pods_force (j : Janitor) (env : Env) : Janitor :=
  let namespaced_pods := list_pod_for_all_namespaces env
  { j with pods := namespaced_pods,
           pods_updated_at := some (.dt env.now) }

/-- `update_pods`: calls `_update_pods` if no refresh happened yet or the
last one is older than `pod_refresh_interval`; raises `ValueError` when
`pods_updated_at` holds a non-`datetime` value. -/
def Janitor.update_pods (j : Janitor) (env : Env) : Except String Janitor :=
  match j.pods_updated_at with
  | none => .ok (j.update_pods_force env)
  | some .corrupt =>
      .error "update_pods expected pods_updated_at to be a datetime instance"
  | some (.dt t) =>
      if env.now - t > j.pod_refresh_interval then
        .ok (j.update_pods_force env)
      else
        .ok j

/-- `is_valid_pod`: ensure the snapshot is fresh, then test whether the
pod's phase is one of the accepted phases (a missing pod yields `None`,
which is never an accepted phase). -/
def Janitor.is_valid_pod (j : Janitor) (env : Env) (pod_name : String) :
    Except String (Bool × Janitor) :=
  match j.update_pods env with
  | .error e => .error e
  | .ok j' =>
    .ok ((dictGet j'.pods pod_name).any (fun ph => j'.valid_pod_phases.contains ph), j')

/-- `is_whitelisted`: the pod name starts with one of the whitelisted
prefixes. -/
def Janitor.is_whitelisted (j : Janitor) (pod_name : String) : Bool :=
  j.whitelisted_pods.any (fun x => pyStartsWith x pod_name)

/-- `_timestamp_to_age`: `None` means the key is new (age 0); otherwise
parse the timestamp and subtract from the current time. -/
def Janitor.timestamp_to_age (env : Env) (ts : Option String) : Int :=
  match ts with
  | none => 0
  | some s => env.now - env.parse s

/-- `is_stale_update_time`: falsy `updated_time` is never stale; a
non-positive effective threshold disables staleness; otherwise compare the
age against the threshold.  The optional `stale_time` argument replaces
`self.stale_time` when it is truthy (Python: non-`None` and non-zero). -/
def Janitor.is_stale_update_time (j : Janitor) (env : Env)
    (updated_time : Option String) (stale_time_arg : Option Int := none) : Bool :=
  let stale_time := match stale_time_arg with
    | some v => if v = 0 then j.stale_time else v
    | none => j.stale_time
  if !(truthy updated_time) then false
  else if stale_time ≤ 0 then false
  else Janitor.timestamp_to_age env updated_time ≥ stale_time

/-- `self.cleaning_queue.split(':')[-1]` — the worker identity encoded in
the processing-queue name. -/
def podNameOfQueue (q : String) : String :=
  (pySplit ":" q).getLastD ""

/-- `should_clean_key`: too-fresh records are never cleaned; otherwise a
record is cleaned exactly when its worker is not in a valid state.  (The
staleness check on `updated_ts` present in earlier revisions is commented
out in the source.) -/
def Janitor.should_clean_key (j : Janitor) (env : Env) (key : String)
    (updated_ts : Option String) : Except String (Bool × Janitor) :=
  let pod_name := podNameOfQueue j.cleaning_queue
  let updated_seconds := Janitor.timestamp_to_age env updated_ts
  if updated_seconds ≤ j.pod_refresh_interval * 3 then
    .ok (false, j)
  else
    match j.is_valid_pod env pod_name with
    | .error e => .error e
    | .ok (valid, j') =>
      if valid then
        .ok (false, j')
      else
        .ok (true, j')

/-- `remove_key_from_queue`: `lrem(cleaning_queue, 1, redis_key)`. -/
def Janitor.remove_key_from_queue (j : Janitor) (s : Store) (redis_key : String) :
    Store × Bool :=
  s.lrem1 j.cleaning_queue redis_key

/-- `cleaning_queue.split(':')[0].split('processing-')[-1]` — the
originating work queue derived from the processing-queue name. -/
def sourceQueueOfQueue (q : String) : String :=
  (pySplit "processing-" ((pySplit ":" q).headD "")).getLastD ""

/-- `repair_redis_key`: remove the key from the processing queue; only if
it was actually removed, push it back onto the originating work queue. -/
def Janitor.repair_redis_key (j : Janitor) (s : Store) (redis_key : String) :
    Bool × Store :=
  let (s', is_removed) := j.remove_key_from_queue s redis_key
  if is_removed then
    let source_queue := sourceQueueOfQueue j.cleaning_queue
    (true, s'.lpush source_queue redis_key)
  else
    (false, s')

/-- `hvals.get('status') in {'done', 'failed'}`. -/
def finishedStatus (st : Option String) : Bool :=
  st.any (fun v => v == "done" || v == "failed")

/-- `clean_key`: a record with no retrievable fields is removed outright;
otherwise classify it, and if it must be cleaned either drop it (finished
status) or repair it (unfinished status). -/
def Janitor.clean_key (j : Janitor) (s : Store) (env : Env) (key : String) :
    Except String (Bool × Janitor × Store) :=
  let res := s.hmget3 key
  if !(truthy res.1 || truthy res.2.1 || truthy res.2.2) then
    let (s', removed) := j.remove_key_from_queue s key
    .ok (removed, j, s')
  else
    match j.should_clean_key env key res.2.1 with
    | .error e => .error e
    | .ok (should_clean, j') =>
      if should_clean then
        if finishedStatus res.1 then
          let (s', removed) := j'.remove_key_from_queue s key
          .ok (removed, j', s')
        else
          let (removed, s') := j'.repair_redis_key s key
          .ok (removed, j', s')
      else
        .ok (false, j', s)

/-- `get_processing_keys`: scan the keyspace for every
`processing_queue:*` pattern. -/
def Janitor.get_processing_keys (j : Janitor) (s : Store) : List String :=
  j.processing_queues.foldr (fun q acc => s.scanMatch (q ++ ":") ++ acc) []

/-- The inner loop of `clean` for one processing queue: run `clean_key` on
each enumerated entry, counting the cleaned ones. -/
def Janitor.clean_entries (j : Janitor) (s : Store) (env : Env) :
    List String → Except String (Nat × Janitor × Store)
  | [] => .ok (0, j, s)
  | key :: rest =>
    match j.clean_key s env key with
    | .error e => .error e
    | .ok (b, j', s') =>
      match j'.clean_entries s' env rest with
      | .error e => .error e
      | .ok (n, j'', s'') => .ok ((if b then 1 else 0) + n, j'', s'')

/-- The outer loop of `clean`: for each enumerated processing queue, set
`cleaning_queue` and sweep the queue's current entries (`lrange q 0 -1`).
-/
def Janitor.clean_queues (j : Janitor) (s : Store) (env : Env) :
    List String → Except String (Nat × Janitor × Store)
  | [] => .ok (0, j, s)
  | q :: rest =>
    match Janitor.clean_entries { j with cleaning_queue := q } s env (s.getList q) with
    | .error e => .error e
    | .ok (n1, j', s') =>
      match j'.clean_queues s' env rest with
      | .error e => .error e
      | .ok (n2, j'', s'') => .ok (n1 + n2, j'', s'')

/-- `clean`: one full sweep.  Enumerates the processing-queue keys, sweeps
them, accumulates `total_repairs`, and resets the per-sweep state
(`cleaning_queue`, the pod snapshot and its timestamp) to like-new.
Returns the number of keys cleaned this sweep. -/
def Janitor.clean (j : Janitor) (s : Store) (env : Env) :
    Except String (Nat × Janitor × Store) :=
  let qs := j.get_processing_keys s
  match j.clean_queues s env qs with
  | .error e => .error e
  | .ok (cleaned, j', s') =>
    let total := if cleaned ≠ 0 then j'.total_repairs + cleaned else j'.total_repairs
    .ok (cleaned,
         { j' with total_repairs := total,
                   cleaning_queue := "",
                   pods := [],
                   pods_updated_at := none },
         s')

/-! ### Basic lemmas about the store operations -/

theorem Store.hashes_setList (s : Store) (q : String) (l : List String) :
    (s.setList q l).hashes = s.hashes := by
  unfold Store.setList
  split <;> rfl

theorem Store.hashes_lrem1 (s : Store) (q v : String) :
    (s.lrem1 q v).1.hashes = s.hashes := by
  unfold Store.lrem1
  cases s.getListOpt q with
  | none => rfl
  | some l =>
    simp only
    split
    · exact s.hashes_setList _ _
    · rfl

theorem Store.hashes_lpush (s : Store) (q v : String) :
    (s.lpush q v).hashes = s.hashes := by
  unfold Store.lpush
  exact s.hashes_setList _ _

theorem Janitor.hashes_remove_key_from_queue (j : Janitor) (s : Store) (k : String) :
    (j.remove_key_from_queue s k).1.hashes = s.hashes :=
  s.hashes_lrem1 _ _

theorem Janitor.hashes_repair_redis_key (j : Janitor) (s : Store) (k : String) :
    (j.repair_redis_key s k).2.hashes = s.hashes := by
  unfold Janitor.repair_redis_key
  simp only
  split
  · exact ((j.remove_key_from_queue s k).1.hashes_lpush _ _).trans
      (j.hashes_remove_key_from_queue s k)
  · exact j.hashes_remove_key_from_queue s k

theorem Janitor.hashes_clean_key (j : Janitor) (s : Store) (env : Env)
    (key : String) (b : Bool) (j' : Janitor) (s' : Store)
    (h : j.clean_key s env key = .ok (b, j', s')) : s'.hashes = s.hashes := by
  unfold Janitor.clean_key at h
  split at h
  next srm brm hrm =>
  simp only at h
  split at h
  · simp only [Except.ok.injEq, Prod.mk.injEq] at h
    rw [← h.2.2]
    have hh := j.hashes_remove_key_from_queue s key
    rw [hrm] at hh
    exact hh
  · split at h
    · exact absurd h (by simp)
    next should j1 heq =>
      split at h
      · split at h
        · simp only [Except.ok.injEq, Prod.mk.injEq] at h
          rw [← h.2.2]
          exact j1.hashes_remove_key_from_queue s key
        · simp only [Except.ok.injEq, Prod.mk.injEq] at h
          rw [← h.2.2]
          exact j1.hashes_repair_redis_key s key
      · simp only [Except.ok.injEq, Prod.mk.injEq] at h
        rw [← h.2.2]

theorem Janitor.hashes_clean_entries (j : Janitor) (s : Store) (env : Env)
    (keys : List String) (n : Nat) (j' : Janitor) (s' : Store)
    (h : j.clean_entries s env keys = .ok (n, j', s')) : s'.hashes = s.hashes := by
  induction keys generalizing j s n j' s' with
  | nil =>
    unfold Janitor.clean_entries at h
    simp only [Except.ok.injEq, Prod.mk.injEq] at h
    rw [← h.2.2]
  | cons key rest ih =>
    unfold Janitor.clean_entries at h
    split at h
    · exact absurd h (by simp)
    next b1 j1 s1 h1 =>
      split at h
      · exact absurd h (by simp)
      next n2 j2 s2 h2 =>
        simp only [Except.ok.injEq, Prod.mk.injEq] at h
        rw [← h.2.2]
        exact (ih j1 s1 n2 j2 s2 h2).trans (j.hashes_clean_key s env key b1 j1 s1 h1)

theorem Janitor.hashes_clean_queues (j : Janitor) (s : Store) (env : Env)
    (qs : List String) (n : Nat) (j' : Janitor) (s' : Store)
    (h : j.clean_queues s env qs = .ok (n, j', s')) : s'.hashes = s.hashes := by
  induction qs generalizing j s n j' s' with
  | nil =>
    unfold Janitor.clean_queues at h
    simp only [Except.ok.injEq, Prod.mk.injEq] at h
    rw [← h.2.2]
  | cons q rest ih =>
    unfold Janitor.clean_queues at h
    split at h
    · exact absurd h (by simp)
    next n1 j1 s1 h1 =>
      split at h
      · exact absurd h (by simp)
      next n2 j2 s2 h2 =>
        simp only [Except.ok.injEq, Prod.mk.injEq] at h
        rw [← h.2.2]
        exact (ih j1 s1 n2 j2 s2 h2).trans
          (Janitor.hashes_clean_entries _ s env _ n1 j1 s1 h1)

/-! ### Lemmas about the Python string primitives -/

theorem pySplitAux_ne_nil (c0 : Char) (cr : List Char) (fuel : Nat)
    (cs : List Char) : pySplitAux c0 cr fuel cs ≠ [] := by
  match fuel, cs with
  | _, [] => simp [pySplitAux]
  | 0, c :: cs => simp [pySplitAux]
  | fuel + 1, c :: cs =>
    unfold pySplitAux
    split
    · simp
    · split <;> simp

/-- Every character of every piece of a split comes from the input. -/
theorem pySplitAux_subset (c0 : Char) (cr : List Char) :
    ∀ (fuel : Nat) (cs : List Char), ∀ p ∈ pySplitAux c0 cr fuel cs,
      ∀ a ∈ p, a ∈ cs := by
  intro fuel
  induction fuel with
  | zero =>
    intro cs p hp a ha
    cases cs with
    | nil =>
      simp only [pySplitAux, List.mem_singleton] at hp
      subst hp
      simp at ha
    | cons c cs' =>
      simp only [pySplitAux, List.mem_singleton] at hp
      subst hp
      exact ha
  | succ fuel ih =>
    intro cs p hp a ha
    cases cs with
    | nil =>
      simp only [pySplitAux, List.mem_singleton] at hp
      subst hp
      simp at ha
    | cons c cs' =>
      unfold pySplitAux at hp
      split at hp
      · cases hp with
        | head => simp at ha
        | tail _ hmem =>
          exact List.mem_cons_of_mem c
            (List.mem_of_mem_drop (ih _ p hmem a ha))
      · cases hrec : pySplitAux c0 cr fuel cs' with
        | nil => exact absurd hrec (pySplitAux_ne_nil c0 cr fuel cs')
        | cons hh tt =>
          rw [hrec] at hp
          cases hp with
          | head =>
            cases ha with
            | head => exact List.mem_cons_self _ _
            | tail _ hah =>
              exact List.mem_cons_of_mem c
                (ih cs' hh (hrec ▸ List.mem_cons_self hh tt) a hah)
          | tail _ hpt =>
            exact List.mem_cons_of_mem c
              (ih cs' p (hrec ▸ List.mem_cons_of_mem hh hpt) a ha)

/-- For a one-character separator with sufficient fuel, no piece of the
split contains the separator. -/
theorem pySplitAux_single_not_mem (c0 : Char) :
    ∀ (fuel : Nat) (cs : List Char), cs.length ≤ fuel →
      ∀ p ∈ pySplitAux c0 [] fuel cs, c0 ∉ p := by
  intro fuel
  induction fuel with
  | zero =>
    intro cs hf p hp
    cases cs with
    | nil =>
      simp only [pySplitAux, List.mem_singleton] at hp
      subst hp
      simp
    | cons c cs' => simp at hf
  | succ fuel ih =>
    intro cs hf p hp
    cases cs with
    | nil =>
      simp only [pySplitAux, List.mem_singleton] at hp
      subst hp
      simp
    | cons c cs' =>
      have hf' : cs'.length ≤ fuel := by
        simp only [List.length_cons] at hf
        omega
      unfold pySplitAux at hp
      split at hp
      next hpre =>
        cases hp with
        | head => simp
        | tail _ hmem =>
          have : cs'.drop ([] : List Char).length = cs' := by simp
          rw [this] at hmem
          exact ih cs' hf' p hmem
      next hpre =>
        have hc : c ≠ c0 := by
          intro hcc
          apply hpre
          subst hcc
          simp [List.isPrefixOf]
        cases hrec : pySplitAux c0 [] fuel cs' with
        | nil => exact absurd hrec (pySplitAux_ne_nil c0 [] fuel cs')
        | cons hh tt =>
          rw [hrec] at hp
          cases hp with
          | head =>
            intro hmem
            cases hmem with
            | head => exact hc rfl
            | tail _ hmh =>
              exact ih cs' hf' hh (hrec ▸ List.mem_cons_self hh tt) hmh
          | tail _ hpt =>
            exact ih cs' hf' p (hrec ▸ List.mem_cons_of_mem hh hpt)

theorem data_asString (l : List Char) : (List.asString l).data = l := rfl

/-- `P` holds of `l.getLastD d` whenever it holds of `d` and of every
element of `l`. -/
theorem getLastD_prop {α : Type} (P : α → Prop) :
    ∀ (l : List α) (d : α), P d → (∀ x ∈ l, P x) → P (l.getLastD d) := by
  intro l
  induction l with
  | nil => intro d hd _; exact hd
  | cons a t ih =>
    intro d _ hl
    rw [List.getLastD_cons]
    exact ih a (hl a (List.mem_cons_self a t))
      (fun x hx => hl x (List.mem_cons_of_mem a hx))

/-- Same helper for `headD`. -/
theorem headD_prop {α : Type} (P : α → Prop) (l : List α) (d : α)
    (hd : P d) (hl : ∀ x ∈ l, P x) : P (l.headD d) := by
  cases l with
  | nil => exact hd
  | cons a t => exact hl a (List.mem_cons_self a t)

/-- No piece of `pySplit ":" q` contains a colon. -/
theorem pySplit_colon_pieces (q : String) :
    ∀ piece ∈ pySplit ":" q, (':' : Char) ∉ piece.data := by
  intro piece hp
  unfold pySplit at hp
  simp only [show (":" : String).data = [':'] from rfl] at hp
  obtain ⟨p0, hp0, hps⟩ := List.mem_map.mp hp
  rw [← hps, data_asString]
  exact pySplitAux_single_not_mem ':' q.data.length q.data le_rfl p0 hp0

/-- The source queue derived from any cleaning-queue name contains no
colon. -/
theorem sourceQueueOfQueue_no_colon (q : String) :
    (':' : Char) ∉ (sourceQueueOfQueue q).data := by
  unfold sourceQueueOfQueue
  apply getLastD_prop (fun x : String => (':' : Char) ∉ x.data)
  · simp [String.data]
  · intro x hx
    set hd : String := (pySplit ":" q).headD "" with hhd
    have hhdc : (':' : Char) ∉ hd.data := by
      apply headD_prop (fun x : String => (':' : Char) ∉ x.data)
      · simp [String.data]
      · exact pySplit_colon_pieces q
    unfold pySplit at hx
    obtain ⟨p0, hp0, hps⟩ := List.mem_map.mp hx
    rw [← hps, data_asString]
    intro hcol
    exact hhdc (pySplitAux_subset _ _ _ hd.data p0 hp0 ':' hcol)

/-- A key matching a `prefix:*` scan pattern contains a colon. -/
theorem colon_mem_of_startsWith (pq q : String)
    (h : pyStartsWith (pq ++ ":") q = true) : (':' : Char) ∈ q.data := by
  unfold pyStartsWith at h
  have hpre := List.isPrefixOf_iff_prefix.mp h
  apply hpre.subset
  rw [show (pq ++ ":" : String).data = pq.data ++ [':'] from by
    simp [String.data_append]]
  simp

end RedisJanitorModel

namespace RedisJanitorModel

/-! ### Lemmas about the store operations on lists -/

theorem lookup_cons_eq {b : Type} (k : String) (v : b) (rest : List (String × b)) :
    List.lookup k ((k, v) :: rest) = some v := by simp [List.lookup]

theorem lookup_cons_ne {b : Type} (q k : String) (v : b) (rest : List (String × b))
    (h : q ≠ k) : List.lookup q ((k, v) :: rest) = List.lookup q rest := by
  simp [List.lookup, beq_false_of_ne h]

theorem lookup_overwrite_self (m : List (String × List String)) (q : String)
    (l : List String) :
    List.lookup q (overwrite q l m) =
      if (List.lookup q m).isSome then some l else none := by
  induction m with
  | nil => rfl
  | cons p rest ih =>
    obtain ⟨k, v⟩ := p
    unfold overwrite
    by_cases h : k = q
    · subst h
      rw [if_pos rfl, lookup_cons_eq, lookup_cons_eq]
      rfl
    · rw [if_neg h, lookup_cons_ne _ _ _ _ (Ne.symm h),
          lookup_cons_ne _ _ _ _ (Ne.symm h), ih]

theorem lookup_overwrite_ne (m : List (String × List String)) (q' : String)
    (l : List String) (q : String) (h : q ≠ q') :
    List.lookup q (overwrite q' l m) = List.lookup q m := by
  induction m with
  | nil => rfl
  | cons p rest ih =>
    obtain ⟨k, v⟩ := p
    unfold overwrite
    by_cases hk : k = q'
    · subst hk
      rw [if_pos rfl, lookup_cons_ne _ _ _ _ h, lookup_cons_ne _ _ _ _ h, ih]
    · rw [if_neg hk]
      by_cases hq : q = k
      · subst hq
        rw [lookup_cons_eq, lookup_cons_eq]
      · rw [lookup_cons_ne _ _ _ _ hq, lookup_cons_ne _ _ _ _ hq, ih]

theorem lookup_append_right_none {b : Type} (m m' : List (String × b))
    (q : String) (h : List.lookup q m = none) :
    List.lookup q (m ++ m') = List.lookup q m' := by
  induction m with
  | nil => rfl
  | cons p rest ih =>
    obtain ⟨k, v⟩ := p
    by_cases hq : q = k
    · subst hq
      rw [lookup_cons_eq] at h
      simp at h
    · rw [lookup_cons_ne _ _ _ _ hq] at h
      rw [List.cons_append, lookup_cons_ne _ _ _ _ hq]
      exact ih h

theorem lookup_append_left {b : Type} (m m' : List (String × b)) (q : String)
    (v0 : b) (h : List.lookup q m = some v0) :
    List.lookup q (m ++ m') = some v0 := by
  induction m with
  | nil => simp at h
  | cons p rest ih =>
    obtain ⟨k, v⟩ := p
    by_cases hq : q = k
    · subst hq
      rw [lookup_cons_eq] at h
      rw [List.cons_append, lookup_cons_eq]
      exact h
    · rw [lookup_cons_ne _ _ _ _ hq] at h
      rw [List.cons_append, lookup_cons_ne _ _ _ _ hq]
      exact ih h

theorem Store.getListOpt_setList_self (s : Store) (q : String) (l : List String) :
    (s.setList q l).getListOpt q = some l := by
  unfold Store.setList Store.getListOpt
  split
  next h =>
    simp only
    rw [lookup_overwrite_self, if_pos h]
  next h =>
    rw [Option.not_isSome_iff_eq_none] at h
    simp only
    rw [lookup_append_right_none _ _ _ h, lookup_cons_eq]

theorem Store.getListOpt_setList_ne (s : Store) (q' : String) (l : List String)
    (q : String) (h : q ≠ q') :
    (s.setList q' l).getListOpt q = s.getListOpt q := by
  unfold Store.setList Store.getListOpt
  split
  · simp only
    rw [lookup_overwrite_ne _ _ _ _ h]
  · simp only
    cases hq : List.lookup q s.lists with
    | none =>
      rw [lookup_append_right_none _ _ _ hq, lookup_cons_ne _ _ _ _ h]
      rfl
    | some b => exact lookup_append_left _ _ _ _ hq

theorem Store.getList_setList_self (s : Store) (q : String) (l : List String) :
    (s.setList q l).getList q = l := by
  unfold Store.getList
  rw [s.getListOpt_setList_self q l]
  rfl

theorem Store.getList_setList_ne (s : Store) (q' : String) (l : List String)
    (q : String) (h : q ≠ q') :
    (s.setList q' l).getList q = s.getList q := by
  unfold Store.getList
  rw [s.getListOpt_setList_ne q' l q h]

/-- `lrem1` on a queue containing the value: removes the first occurrence. -/
theorem Store.lrem1_of_mem (s : Store) (q v : String)
    (h : v ∈ s.getList q) :
    s.lrem1 q v = (s.setList q ((s.getList q).erase v), true) := by
  unfold Store.lrem1
  cases hl : s.getListOpt q with
  | none =>
    unfold Store.getList at h
    rw [hl] at h
    simp at h
  | some l =>
    unfold Store.getList at h ⊢
    rw [hl] at h ⊢
    simp only [Option.getD_some] at h ⊢
    rw [if_pos h]

/-- `lrem1` on a queue not containing the value: a no-op returning 0. -/
theorem Store.lrem1_of_not_mem (s : Store) (q v : String)
    (h : v ∉ s.getList q) :
    s.lrem1 q v = (s, false) := by
  unfold Store.lrem1
  cases hl : s.getListOpt q with
  | none => rfl
  | some l =>
    unfold Store.getList at h
    rw [hl] at h
    simp only [Option.getD_some] at h
    dsimp only
    rw [if_neg h]

/-! ### Lemmas about the pod snapshot -/

theorem Janitor.update_pods_force_idem (j : Janitor) (env : Env) :
    (j.update_pods_force env).update_pods_force env = j.update_pods_force env := rfl

theorem Janitor.update_pods_of_none (j : Janitor) (env : Env)
    (h : j.pods_updated_at = none) :
    j.update_pods env = .ok (j.update_pods_force env) := by
  unfold Janitor.update_pods
  rw [h]

theorem Janitor.update_pods_of_force (j : Janitor) (env : Env) :
    (j.update_pods_force env).update_pods env = .ok (j.update_pods_force env) := by
  unfold Janitor.update_pods
  dsimp only [Janitor.update_pods_force]
  split <;> rfl

/-- Decidable equality of `Except` results (used to evaluate the model at
the concrete witness inputs). -/
instance {e a : Type} [DecidableEq e] [DecidableEq a] : DecidableEq (Except e a)
  | .error x, .error y =>
    if h : x = y then .isTrue (by rw [h]) else .isFalse (by simp [h])
  | .error _, .ok _ => .isFalse (by simp)
  | .ok _, .error _ => .isFalse (by simp)
  | .ok x, .ok y =>
    if h : x = y then .isTrue (by rw [h]) else .isFalse (by simp [h])

theorem Janitor.update_pods_ok_state (j : Janitor) (env : Env) (j' : Janitor)
    (h : j.update_pods env = .ok j') :
    j' = j ∨ j' = j.update_pods_force env := by
  unfold Janitor.update_pods at h
  cases hts : j.pods_updated_at with
  | none =>
    rw [hts] at h
    simp only [Except.ok.injEq] at h
    right
    exact h.symm
  | some tv =>
    cases tv with
    | corrupt => rw [hts] at h; simp at h
    | dt t =>
      rw [hts] at h
      dsimp only at h
      split at h <;> simp only [Except.ok.injEq] at h
      · right; exact h.symm
      · left; exact h.symm

theorem Janitor.is_valid_pod_ok_state (j : Janitor) (env : Env) (name : String)
    (v : Bool) (j' : Janitor)
    (h : j.is_valid_pod env name = .ok (v, j')) :
    j' = j ∨ j' = j.update_pods_force env := by
  unfold Janitor.is_valid_pod at h
  split at h
  · simp at h
  next jr hur =>
    simp only [Except.ok.injEq, Prod.mk.injEq] at h
    rw [← h.2]
    exact j.update_pods_ok_state env jr hur

theorem Janitor.should_clean_key_ok_state (j : Janitor) (env : Env)
    (key : String) (ts : Option String) (v : Bool) (j' : Janitor)
    (h : j.should_clean_key env key ts = .ok (v, j')) :
    j' = j ∨ j' = j.update_pods_force env := by
  unfold Janitor.should_clean_key at h
  simp only at h
  split at h
  · simp only [Except.ok.injEq, Prod.mk.injEq] at h
    left
    exact h.2.symm
  · split at h
    · simp at h
    next valid j1 heq =>
      have h1 := j.is_valid_pod_ok_state env _ valid j1 heq
      split at h <;> simp only [Except.ok.injEq, Prod.mk.injEq] at h <;>
        rw [← h.2] <;> exact h1

/-- The fields of the janitor other than the pod snapshot are never
changed by `update_pods_force`. -/
theorem Janitor.update_pods_force_fields (j : Janitor) (env : Env) :
    (j.update_pods_force env).cleaning_queue = j.cleaning_queue ∧
    (j.update_pods_force env).pod_refresh_interval = j.pod_refresh_interval ∧
    (j.update_pods_force env).valid_pod_phases = j.valid_pod_phases ∧
    (j.update_pods_force env).stale_time = j.stale_time ∧
    (j.update_pods_force env).total_repairs = j.total_repairs ∧
    (j.update_pods_force env).processing_queues = j.processing_queues :=
  ⟨rfl, rfl, rfl, rfl, rfl, rfl⟩

/-! ### Reachable pod-snapshot states and the pure classification -/

/-- A janitor whose snapshot state can actually occur at the given instant:
either no refresh has happened, or the last refresh happened now against
the current cluster listing.  Every state reachable inside one sweep with
a fixed environment satisfies this. -/
def PodsOk (j : Janitor) (env : Env) : Prop :=
  j.pods_updated_at = none ∨ j = j.update_pods_force env

theorem PodsOk.force (j : Janitor) (env : Env) :
    PodsOk (j.update_pods_force env) env :=
  Or.inr rfl

theorem PodsOk.update_pods_eq (j : Janitor) (env : Env) (h : PodsOk j env) :
    j.update_pods env = .ok (j.update_pods_force env) := by
  rcases h with h | h
  · exact j.update_pods_of_none env h
  · conv_lhs => rw [h]
    exact j.update_pods_of_force env

theorem PodsOk.is_valid_pod_eq (j : Janitor) (env : Env) (h : PodsOk j env)
    (name : String) :
    j.is_valid_pod env name =
      .ok ((dictGet (list_pod_for_all_namespaces env) name).any
             (fun ph => j.valid_pod_phases.contains ph),
           j.update_pods_force env) := by
  unfold Janitor.is_valid_pod
  rw [h.update_pods_eq]
  rfl

theorem PodsOk.should_clean_key_eq (j : Janitor) (env : Env)
    (h : PodsOk j env) (key : String) (ts : Option String) :
    j.should_clean_key env key ts =
      if Janitor.timestamp_to_age env ts ≤ j.pod_refresh_interval * 3 then
        .ok (false, j)
      else
        .ok (!((dictGet (list_pod_for_all_namespaces env)
                 (podNameOfQueue j.cleaning_queue)).any
                (fun ph => j.valid_pod_phases.contains ph)),
             j.update_pods_force env) := by
  unfold Janitor.should_clean_key
  dsimp only
  split
  · rfl
  · rw [PodsOk.is_valid_pod_eq j env h (podNameOfQueue j.cleaning_queue)]
    dsimp only
    cases hb : (dictGet (list_pod_for_all_namespaces env)
        (podNameOfQueue j.cleaning_queue)).any
        (fun ph => j.valid_pod_phases.contains ph) <;> rfl

theorem PodsOk.with_cleaning_queue (j : Janitor) (env : Env) (q : String)
    (h : PodsOk j env) : PodsOk { j with cleaning_queue := q } env := by
  rcases h with h | h
  · left
    exact h
  · right
    conv_lhs => rw [h]
    rfl

/-- The configuration fields of the janitor that the classification
depends on (plus the processing-queue list used for enumeration). -/
def sameConfig (j j0 : Janitor) : Prop :=
  j.pod_refresh_interval = j0.pod_refresh_interval ∧
  j.valid_pod_phases = j0.valid_pod_phases ∧
  j.processing_queues = j0.processing_queues

theorem sameConfig_refl (j : Janitor) : sameConfig j j := ⟨rfl, rfl, rfl⟩

theorem sameConfig_force (j j0 : Janitor) (env : Env) (h : sameConfig j j0) :
    sameConfig (j.update_pods_force env) j0 := h

theorem sameConfig_cq (j j0 : Janitor) (q : String) (h : sameConfig j j0) :
    sameConfig { j with cleaning_queue := q } j0 := h

/-- The three record fields read by `hmget`, as a function of the hash
table alone. -/
def hmgetFields (hs : List (String × JobRecord)) (k : String) :
    Option String × Option String × Option String :=
  match hs.lookup k with
  | none => (none, none, none)
  | some r => (r.status, r.updated_at, r.updated_by)

theorem hmget3_eq_fields (s : Store) (k : String) :
    s.hmget3 k = hmgetFields s.hashes k := rfl

/-- The pure per-entry classification implemented by one reachable
`clean_key` call: `true` means the entry is kept (not cleaned).  It
depends only on the hash table, the queue name, the environment and the
config fields. -/
def keyKeep (j : Janitor) (env : Env) (q k : String)
    (hs : List (String × JobRecord)) : Bool :=
  let res := hmgetFields hs k
  if !(truthy res.1 || truthy res.2.1 || truthy res.2.2) then false
  else if Janitor.timestamp_to_age env res.2.1 ≤ j.pod_refresh_interval * 3 then
    true
  else
    (dictGet (list_pod_for_all_namespaces env) (podNameOfQueue q)).any
      (fun ph => j.valid_pod_phases.contains ph)

theorem keyKeep_congr (j j0 : Janitor) (env : Env) (q k : String)
    (hs : List (String × JobRecord)) (h : sameConfig j j0) :
    keyKeep j env q k hs = keyKeep j0 env q k hs := by
  unfold keyKeep
  rw [h.1, h.2.1]

theorem Store.getListOpt_isSome_of_mem (s : Store) (q k : String)
    (h : k ∈ s.getList q) : (s.getListOpt q).isSome := by
  unfold Store.getList at h
  cases hl : s.getListOpt q with
  | none => rw [hl] at h; simp at h
  | some l => simp

/-- The three facts about `lrem1` needed by the sweep invariant: the
target list loses its first occurrence of the value, every other list
binding is untouched, and no list key is created. -/
theorem Store.lrem1_effect (s : Store) (q k : String) :
    (s.lrem1 q k).1.getList q = (s.getList q).erase k ∧
    (∀ q2, q2 ≠ q → (s.lrem1 q k).1.getListOpt q2 = s.getListOpt q2) ∧
    (∀ name, ((s.lrem1 q k).1.getListOpt name).isSome →
      (s.getListOpt name).isSome) := by
  by_cases hm : k ∈ s.getList q
  · rw [s.lrem1_of_mem q k hm]
    refine ⟨s.getList_setList_self q _, fun q2 h2 => s.getListOpt_setList_ne q _ q2 h2,
            fun name h => ?_⟩
    by_cases hn : name = q
    · subst hn
      exact s.getListOpt_isSome_of_mem name k hm
    · rw [s.getListOpt_setList_ne q _ name hn] at h
      exact h
  · rw [s.lrem1_of_not_mem q k hm]
    exact ⟨(List.erase_of_not_mem hm).symm, fun _ _ => rfl, fun _ h => h⟩

/-! ### The per-entry specification of clean_key on reachable states -/

theorem clean_key_spec (j : Janitor) (s : Store) (env : Env) (k : String)
    (hok : PodsOk j env) (hq : (':' : Char) ∈ j.cleaning_queue.data) :
    ∃ b j' s', j.clean_key s env k = .ok (b, j', s') ∧
      (j' = j ∨ j' = j.update_pods_force env) ∧
      s'.hashes = s.hashes ∧
      (keyKeep j env j.cleaning_queue k s.hashes = true → b = false ∧ s' = s) ∧
      (keyKeep j env j.cleaning_queue k s.hashes = false →
        s'.getList j.cleaning_queue = (s.getList j.cleaning_queue).erase k ∧
        (∀ q2, (':' : Char) ∈ q2.data → q2 ≠ j.cleaning_queue →
          s'.getListOpt q2 = s.getListOpt q2) ∧
        (∀ name, (':' : Char) ∈ name.data →
          (s'.getListOpt name).isSome → (s.getListOpt name).isSome)) := by
  have hsrc_nocolon := sourceQueueOfQueue_no_colon j.cleaning_queue
  have hqsrc : j.cleaning_queue ≠ sourceQueueOfQueue j.cleaning_queue := by
    intro he
    exact hsrc_nocolon (he ▸ hq)
  by_cases hmal : (!(truthy (s.hmget3 k).1 || truthy (s.hmget3 k).2.1 ||
      truthy (s.hmget3 k).2.2)) = true
  · -- malformed record: removed outright, classified not-keep
    have hkeep : keyKeep j env j.cleaning_queue k s.hashes = false := by
      unfold keyKeep
      rw [← hmget3_eq_fields s k]
      dsimp only
      rw [if_pos hmal]
    have heq : j.clean_key s env k =
        .ok ((j.remove_key_from_queue s k).2, j, (j.remove_key_from_queue s k).1) := by
      unfold Janitor.clean_key
      dsimp only
      rw [if_pos hmal]
    have heff := s.lrem1_effect j.cleaning_queue k
    refine ⟨_, _, _, heq, Or.inl rfl, j.hashes_remove_key_from_queue s k,
            fun ht => absurd ht (by rw [hkeep]; simp), fun _ => ?_⟩
    exact ⟨heff.1, fun q2 _ h2 => heff.2.1 q2 h2, fun name _ h => heff.2.2 name h⟩
  · -- record readable: classification decides
    have hcond : (!(truthy (s.hmget3 k).1 || truthy (s.hmget3 k).2.1 ||
        truthy (s.hmget3 k).2.2)) = false := by
      revert hmal
      cases (!(truthy (s.hmget3 k).1 || truthy (s.hmget3 k).2.1 ||
        truthy (s.hmget3 k).2.2)) <;> simp
    have hstep : j.clean_key s env k =
        match j.should_clean_key env k (s.hmget3 k).2.1 with
        | .error e => .error e
        | .ok (sc, j') =>
          if sc then
            if finishedStatus (s.hmget3 k).1 then
              .ok ((j'.remove_key_from_queue s k).2, j',
                   (j'.remove_key_from_queue s k).1)
            else
              .ok ((j'.repair_redis_key s k).1, j', (j'.repair_redis_key s k).2)
          else .ok (false, j', s) := by
      unfold Janitor.clean_key
      dsimp only
      rw [hcond]
      rfl
    rw [PodsOk.should_clean_key_eq j env hok k (s.hmget3 k).2.1] at hstep
    have hkk0 : keyKeep j env j.cleaning_queue k s.hashes =
        if Janitor.timestamp_to_age env (s.hmget3 k).2.1 ≤
            j.pod_refresh_interval * 3 then true
        else (dictGet (list_pod_for_all_namespaces env)
            (podNameOfQueue j.cleaning_queue)).any
            (fun ph => j.valid_pod_phases.contains ph) := by
      unfold keyKeep
      rw [← hmget3_eq_fields s k]
      dsimp only
      rw [hcond]
      rfl
    by_cases hage : Janitor.timestamp_to_age env (s.hmget3 k).2.1 ≤
        j.pod_refresh_interval * 3
    · -- too fresh: keep
      have hkeep : keyKeep j env j.cleaning_queue k s.hashes = true :=
        hkk0.trans (if_pos hage)
      rw [if_pos hage] at hstep
      have hstep2 : j.clean_key s env k = .ok (false, j, s) := hstep.trans rfl
      exact ⟨false, j, s, hstep2, Or.inl rfl, rfl, fun _ => ⟨rfl, rfl⟩,
             fun hf => absurd hf (by rw [hkeep]; simp)⟩
    · rw [if_neg hage] at hstep
      have hkeep : keyKeep j env j.cleaning_queue k s.hashes =
          (dictGet (list_pod_for_all_namespaces env)
            (podNameOfQueue j.cleaning_queue)).any
            (fun ph => j.valid_pod_phases.contains ph) :=
        hkk0.trans (if_neg hage)
      by_cases hv : (dictGet (list_pod_for_all_namespaces env)
          (podNameOfQueue j.cleaning_queue)).any
          (fun ph => j.valid_pod_phases.contains ph) = true
      · -- worker valid: keep
        rw [hv] at hstep
        have hstep2 : j.clean_key s env k =
            .ok (false, j.update_pods_force env, s) := hstep.trans rfl
        exact ⟨false, j.update_pods_force env, s, hstep2, Or.inr rfl, rfl,
               fun _ => ⟨rfl, rfl⟩,
               fun hf => absurd hf (by rw [hkeep, hv]; simp)⟩
      · -- worker invalid: cleaned
        have hv' : (dictGet (list_pod_for_all_namespaces env)
            (podNameOfQueue j.cleaning_queue)).any
            (fun ph => j.valid_pod_phases.contains ph) = false := by
          revert hv
          cases (dictGet (list_pod_for_all_namespaces env)
            (podNameOfQueue j.cleaning_queue)).any
            (fun ph => j.valid_pod_phases.contains ph) <;> simp
        rw [hv'] at hstep
        have hkeepf : keyKeep j env j.cleaning_queue k s.hashes = false :=
          hkeep.trans hv'
        have heff := s.lrem1_effect j.cleaning_queue k
        have hstepf : j.clean_key s env k =
            if finishedStatus (s.hmget3 k).1 = true then
              .ok ((Janitor.remove_key_from_queue (j.update_pods_force env) s k).2,
                   j.update_pods_force env,
                   (Janitor.remove_key_from_queue (j.update_pods_force env) s k).1)
            else
              .ok ((Janitor.repair_redis_key (j.update_pods_force env) s k).1,
                   j.update_pods_force env,
                   (Janitor.repair_redis_key (j.update_pods_force env) s k).2) :=
          hstep.trans rfl
        by_cases hfin : finishedStatus (s.hmget3 k).1 = true
        · have hstep2 := hstepf.trans (if_pos hfin)
          refine ⟨_, _, _, hstep2, Or.inr rfl,
                  Janitor.hashes_remove_key_from_queue _ s k,
                  fun ht => absurd ht (by rw [hkeepf]; simp), fun _ => ?_⟩
          exact ⟨heff.1, fun q2 _ h2 => heff.2.1 q2 h2,
                 fun name _ h => heff.2.2 name h⟩
        · have hstep2 := hstepf.trans (if_neg hfin)
          by_cases hm : k ∈ s.getList j.cleaning_queue
          · have hrm : Janitor.remove_key_from_queue (j.update_pods_force env) s k =
                (s.setList j.cleaning_queue
                  ((s.getList j.cleaning_queue).erase k), true) := by
              unfold Janitor.remove_key_from_queue
              exact s.lrem1_of_mem _ _ hm
            have hrep : Janitor.repair_redis_key (j.update_pods_force env) s k =
                (true, (s.setList j.cleaning_queue
                    ((s.getList j.cleaning_queue).erase k)).lpush
                  (sourceQueueOfQueue j.cleaning_queue) k) := by
              unfold Janitor.repair_redis_key
              rw [hrm]
              rfl
            rw [hrep] at hstep2
            have hhash : ((s.setList j.cleaning_queue
                ((s.getList j.cleaning_queue).erase k)).lpush
                (sourceQueueOfQueue j.cleaning_queue) k).hashes = s.hashes := by
              rw [Store.hashes_lpush, Store.hashes_setList]
            refine ⟨_, _, _, hstep2, Or.inr rfl, hhash,
                    fun ht => absurd ht (by rw [hkeepf]; simp),
                    fun _ => ⟨?_, fun q2 hq2c hq2 => ?_, fun name hnc h => ?_⟩⟩
            · unfold Store.lpush
              rw [Store.getList_setList_ne _ _ _ _ hqsrc,
                  Store.getList_setList_self]
            · have hq2src : q2 ≠ sourceQueueOfQueue j.cleaning_queue := by
                intro he
                exact hsrc_nocolon (he ▸ hq2c)
              unfold Store.lpush
              rw [Store.getListOpt_setList_ne _ _ _ _ hq2src,
                  Store.getListOpt_setList_ne _ _ _ _ hq2]
            · have hnsrc : name ≠ sourceQueueOfQueue j.cleaning_queue := by
                intro he
                exact hsrc_nocolon (he ▸ hnc)
              unfold Store.lpush at h
              rw [Store.getListOpt_setList_ne _ _ _ _ hnsrc] at h
              by_cases hn : name = j.cleaning_queue
              · subst hn
                exact s.getListOpt_isSome_of_mem _ k hm
              · rw [Store.getListOpt_setList_ne _ _ _ _ hn] at h
                exact h
          · have hrm : Janitor.remove_key_from_queue (j.update_pods_force env) s k =
                (s, false) := by
              unfold Janitor.remove_key_from_queue
              exact s.lrem1_of_not_mem _ _ hm
            have hrep : Janitor.repair_redis_key (j.update_pods_force env) s k =
                (false, s) := by
              unfold Janitor.repair_redis_key
              rw [hrm]
              rfl
            rw [hrep] at hstep2
            exact ⟨_, _, _, hstep2, Or.inr rfl, rfl,
                   fun ht => absurd ht (by rw [hkeepf]; simp),
                   fun _ => ⟨(List.erase_of_not_mem hm).symm, fun _ _ _ => rfl,
                             fun _ _ h => h⟩⟩

/-! ### The sweep invariant over one queue and over the queue list -/

theorem clean_entries_spec (j0 : Janitor) (env : Env) (q : String)
    (hqc : (':' : Char) ∈ q.data) (hs0 : List (String × JobRecord)) :
    ∀ (S K : List String) (j : Janitor) (s : Store),
      PodsOk j env → sameConfig j j0 → j.cleaning_queue = q →
      s.hashes = hs0 →
      s.getList q = K ++ S →
      (∀ x ∈ K, keyKeep j0 env q x hs0 = true) →
      ∃ n j' s', j.clean_entries s env S = .ok (n, j', s') ∧
        PodsOk j' env ∧ sameConfig j' j0 ∧ j'.cleaning_queue = q ∧
        s'.hashes = hs0 ∧
        s'.getList q = K ++ S.filter (fun x => keyKeep j0 env q x hs0) ∧
        (∀ q2, (':' : Char) ∈ q2.data → q2 ≠ q →
          s'.getListOpt q2 = s.getListOpt q2) ∧
        (∀ name, (':' : Char) ∈ name.data →
          (s'.getListOpt name).isSome → (s.getListOpt name).isSome) := by
  intro S
  induction S with
  | nil =>
    intro K j s hok hcfg hcq hh hgl hK
    exact ⟨0, j, s, rfl, hok, hcfg, hcq, hh, by simpa using hgl,
           fun _ _ _ => rfl, fun _ _ h => h⟩
  | cons k S ih =>
    intro K j s hok hcfg hcq hh hgl hK
    obtain ⟨b, j1, s1, hck, hj1, hh1, hkeepT, hkeepF⟩ :=
      clean_key_spec j s env k hok (hcq ▸ hqc)
    have hkk : keyKeep j env j.cleaning_queue k s.hashes =
        keyKeep j0 env q k hs0 := by
      rw [hcq, hh, keyKeep_congr j j0 env q k hs0 hcfg]
    have hok1 : PodsOk j1 env := by
      rcases hj1 with h | h
      · rw [h]; exact hok
      · rw [h]; exact PodsOk.force j env
    have hcfg1 : sameConfig j1 j0 := by
      rcases hj1 with h | h
      · rw [h]; exact hcfg
      · rw [h]; exact sameConfig_force j j0 env hcfg
    have hcq1 : j1.cleaning_queue = q := by
      rcases hj1 with h | h
      · rw [h]; exact hcq
      · rw [h]; exact hcq
    by_cases hkeep : keyKeep j0 env q k hs0 = true
    · obtain ⟨hb, hs1⟩ := hkeepT (hkk.trans hkeep)
      rw [hs1] at hck
      have hgl' : s.getList q = (K ++ [k]) ++ S := by
        rw [hgl, ← List.append_cons]
      have hK' : ∀ x ∈ K ++ [k], keyKeep j0 env q x hs0 = true := by
        intro x hx
        rcases List.mem_append.mp hx with hx | hx
        · exact hK x hx
        · rw [List.mem_singleton.mp hx]
          exact hkeep
      obtain ⟨n, j', s', hrec, hok', hcfg', hcq', hh', hgl'', hunch', hsome'⟩ :=
        ih (K ++ [k]) j1 s hok1 hcfg1 hcq1 hh hgl' hK'
      have e1 : j.clean_entries s env (k :: S) =
          match j1.clean_entries s env S with
          | .error e => .error e
          | .ok (n, j', s') => .ok ((if b then 1 else 0) + n, j', s') := by
        rw [Janitor.clean_entries.eq_2, hck]
      rw [hrec] at e1
      refine ⟨(if b then 1 else 0) + n, j', s', e1.trans rfl, hok', hcfg', hcq',
              hh', ?_, hunch', hsome'⟩
      rw [hgl'', List.filter_cons_of_pos (by exact hkeep), ← List.append_cons]
    · have hkeepf : keyKeep j0 env q k hs0 = false := by
        revert hkeep
        cases keyKeep j0 env q k hs0 <;> simp
      obtain ⟨hgl1, hunch1, hsome1⟩ := hkeepF (hkk.trans hkeepf)
      rw [hcq] at hgl1 hunch1
      have hkK : k ∉ K := by
        intro hmem
        rw [hK k hmem] at hkeepf
        exact absurd hkeepf (by simp)
      have hgl1' : s1.getList q = K ++ S := by
        rw [hgl1, hgl, List.erase_append_right _ hkK, List.erase_cons_head]
      obtain ⟨n, j', s', hrec, hok', hcfg', hcq', hh', hgl'', hunch', hsome'⟩ :=
        ih K j1 s1 hok1 hcfg1 hcq1 (hh1.trans hh) hgl1' hK
      have e1 : j.clean_entries s env (k :: S) =
          match j1.clean_entries s1 env S with
          | .error e => .error e
          | .ok (n, j', s') => .ok ((if b then 1 else 0) + n, j', s') := by
        rw [Janitor.clean_entries.eq_2, hck]
      rw [hrec] at e1
      refine ⟨(if b then 1 else 0) + n, j', s', e1.trans rfl, hok', hcfg', hcq',
              hh', ?_, ?_, ?_⟩
      · rw [hgl'', List.filter_cons_of_neg (by simp [hkeepf])]
      · intro q2 hq2c hq2
        rw [hunch' q2 hq2c hq2, hunch1 q2 hq2c hq2]
      · intro name hnc h
        exact hsome1 name hnc (hsome' name hnc h)

theorem clean_queues_spec (j0 : Janitor) (env : Env)
    (hs0 : List (String × JobRecord)) :
    ∀ (QS : List String) (j : Janitor) (s : Store),
      PodsOk j env → sameConfig j j0 → s.hashes = hs0 →
      (∀ q ∈ QS, (':' : Char) ∈ q.data) →
      ∃ n j' s', j.clean_queues s env QS = .ok (n, j', s') ∧
        PodsOk j' env ∧ sameConfig j' j0 ∧ s'.hashes = hs0 ∧
        (∀ q2, (':' : Char) ∈ q2.data → q2 ∉ QS →
          s'.getListOpt q2 = s.getListOpt q2) ∧
        (∀ q ∈ QS, ∀ k ∈ s'.getList q, keyKeep j0 env q k hs0 = true) ∧
        (∀ name, (':' : Char) ∈ name.data →
          (s'.getListOpt name).isSome → (s.getListOpt name).isSome) := by
  intro QS
  induction QS with
  | nil =>
    intro j s hok hcfg hh _
    exact ⟨0, j, s, rfl, hok, hcfg, hh, fun _ _ _ => rfl, by simp,
           fun _ _ h => h⟩
  | cons q rest ih =>
    intro j s hok hcfg hh hQS
    have hqc : (':' : Char) ∈ q.data := hQS q (List.mem_cons_self q rest)
    obtain ⟨n1, j1, s1, hce, hok1, hcfg1, hcq1, hh1, hgl1, hunch1, hsome1⟩ :=
      clean_entries_spec j0 env q hqc hs0 (s.getList q) []
        { j with cleaning_queue := q } s
        (PodsOk.with_cleaning_queue j env q hok) (sameConfig_cq j j0 q hcfg) rfl hh
        (by simp) (by simp)
    obtain ⟨n2, j2, s2, hrec, hok2, hcfg2, hh2, hunch2, hkeep2, hsome2⟩ :=
      ih j1 s1 hok1 hcfg1 hh1 (fun x hx => hQS x (List.mem_cons_of_mem q hx))
    have e1 : j.clean_queues s env (q :: rest) =
        match j1.clean_queues s1 env rest with
        | .error e => .error e
        | .ok (n2, j'', s'') => .ok (n1 + n2, j'', s'') := by
      rw [Janitor.clean_queues.eq_2, hce]
    rw [hrec] at e1
    refine ⟨n1 + n2, j2, s2, e1.trans rfl, hok2, hcfg2, hh2, ?_, ?_, ?_⟩
    · intro q2 hc h2
      have h2q : q2 ≠ q := fun he => h2 (he ▸ List.mem_cons_self q rest)
      have h2rest : q2 ∉ rest := fun hm => h2 (List.mem_cons_of_mem q hm)
      rw [hunch2 q2 hc h2rest, hunch1 q2 hc h2q]
    · intro q' hq' k hk
      rcases List.mem_cons.mp hq' with he | hm
      · subst he
        by_cases hqrest : q' ∈ rest
        · exact hkeep2 q' hqrest k hk
        · have hopt : s2.getListOpt q' = s1.getListOpt q' :=
            hunch2 q' hqc hqrest
          have hgl : s2.getList q' = s1.getList q' := by
            unfold Store.getList
            rw [hopt]
          rw [hgl] at hk
          rw [hgl1] at hk
          simp only [List.nil_append] at hk
          exact (List.mem_filter.mp hk).2
      · exact hkeep2 q' hm k hk
    · intro name hc h
      exact hsome1 name hc (hsome2 name hc h)

/-- Sweeping a queue all of whose current entries are classified keep
changes nothing and cleans zero keys. -/
theorem clean_entries_keep_spec (j0 : Janitor) (env : Env) (q : String)
    (hqc : (':' : Char) ∈ q.data) (s : Store) :
    ∀ (S : List String) (j : Janitor),
      PodsOk j env → sameConfig j j0 → j.cleaning_queue = q →
      (∀ x ∈ S, keyKeep j0 env q x s.hashes = true) →
      ∃ j', j.clean_entries s env S = .ok (0, j', s) ∧
        PodsOk j' env ∧ sameConfig j' j0 ∧ j'.cleaning_queue = q := by
  intro S
  induction S with
  | nil =>
    intro j hok hcfg hcq _
    exact ⟨j, rfl, hok, hcfg, hcq⟩
  | cons k S ih =>
    intro j hok hcfg hcq hS
    obtain ⟨b, j1, s1, hck, hj1, _, hkeepT, _⟩ :=
      clean_key_spec j s env k hok (hcq ▸ hqc)
    have hkk : keyKeep j env j.cleaning_queue k s.hashes = true := by
      rw [hcq, keyKeep_congr j j0 env q k s.hashes hcfg]
      exact hS k (List.mem_cons_self k S)
    obtain ⟨hb, hs1⟩ := hkeepT hkk
    rw [hb, hs1] at hck
    have hok1 : PodsOk j1 env := by
      rcases hj1 with h | h
      · rw [h]; exact hok
      · rw [h]; exact PodsOk.force j env
    have hcfg1 : sameConfig j1 j0 := by
      rcases hj1 with h | h
      · rw [h]; exact hcfg
      · rw [h]; exact sameConfig_force j j0 env hcfg
    have hcq1 : j1.cleaning_queue = q := by
      rcases hj1 with h | h
      · rw [h]; exact hcq
      · rw [h]; exact hcq
    obtain ⟨j', hrec, hok', hcfg', hcq'⟩ :=
      ih j1 hok1 hcfg1 hcq1 (fun x hx => hS x (List.mem_cons_of_mem k hx))
    have e1 : j.clean_entries s env (k :: S) =
        match j1.clean_entries s env S with
        | .error e => .error e
        | .ok (n, j', s') => .ok ((if false then 1 else 0) + n, j', s') := by
      rw [Janitor.clean_entries.eq_2, hck]
    rw [hrec] at e1
    exact ⟨j', e1.trans rfl, hok', hcfg', hcq'⟩

/-- Sweeping a list of queues all of whose entries are classified keep
changes nothing and cleans zero keys. -/
theorem clean_queues_keep_spec (j0 : Janitor) (env : Env) (s : Store) :
    ∀ (QS : List String) (j : Janitor),
      PodsOk j env → sameConfig j j0 →
      (∀ q ∈ QS, (':' : Char) ∈ q.data) →
      (∀ q ∈ QS, ∀ k ∈ s.getList q, keyKeep j0 env q k s.hashes = true) →
      ∃ j', j.clean_queues s env QS = .ok (0, j', s) := by
  intro QS
  induction QS with
  | nil =>
    intro j _ _ _ _
    exact ⟨j, rfl⟩
  | cons q rest ih =>
    intro j hok hcfg hQSc hQSkeep
    have hqc : (':' : Char) ∈ q.data := hQSc q (List.mem_cons_self q rest)
    obtain ⟨j1, hce, hok1, hcfg1, _⟩ :=
      clean_entries_keep_spec j0 env q hqc s (s.getList q)
        { j with cleaning_queue := q }
        (PodsOk.with_cleaning_queue j env q hok) (sameConfig_cq j j0 q hcfg) rfl
        (hQSkeep q (List.mem_cons_self q rest))
    obtain ⟨j', hrec⟩ :=
      ih j1 hok1 hcfg1 (fun x hx => hQSc x (List.mem_cons_of_mem q hx))
        (fun x hx => hQSkeep x (List.mem_cons_of_mem q hx))
    have e1 : j.clean_queues s env (q :: rest) =
        match j1.clean_queues s env rest with
        | .error e => .error e
        | .ok (n2, j'', s'') => .ok (0 + n2, j'', s'') := by
      rw [Janitor.clean_queues.eq_2, hce]
    rw [hrec] at e1
    exact ⟨j', e1.trans rfl⟩

/-! ### Enumeration of the processing-queue keys -/

theorem mem_scanMatch (s : Store) (pat k : String) :
    k ∈ s.scanMatch pat ↔ k ∈ s.allKeys ∧ pyStartsWith pat k = true := by
  unfold Store.scanMatch
  exact List.mem_filter

theorem mem_get_processing_keys (j : Janitor) (s : Store) (q : String) :
    q ∈ j.get_processing_keys s ↔
      ∃ pq ∈ j.processing_queues, q ∈ s.scanMatch (pq ++ ":") := by
  unfold Janitor.get_processing_keys
  induction j.processing_queues with
  | nil => simp
  | cons a t ih => simp [List.mem_append, ih]

theorem mem_keys_of_lookup_isSome {β : Type} (m : List (String × β))
    (q : String) (h : (List.lookup q m).isSome) : q ∈ m.map Prod.fst := by
  induction m with
  | nil => simp at h
  | cons p rest ih =>
    obtain ⟨k, v⟩ := p
    by_cases hq : q = k
    · subst hq
      simp
    · rw [lookup_cons_ne _ _ _ _ hq] at h
      simp only [List.map_cons, List.mem_cons]
      exact Or.inr (ih h)

/-- C5: `clean` is idempotent: starting from the like-new snapshot state
the class maintains on every entry to `clean` (constructor and
end-of-sweep both leave `pods_updated_at` unset), running a second sweep
with the same store, clock, parser and cluster listing cleans zero keys
and leaves the store untouched: every entry cleaned by the first sweep is
no longer enumerated, and every entry left alone is classified keep
again. -/
theorem clean_idempotent (j : Janitor) (s : Store) (env : Env)
    (h0 : j.pods_updated_at = none)
    (n1 n2 : Nat) (j1 j2 : Janitor) (s1 s2 : Store)
    (h1 : j.clean s env = .ok (n1, j1, s1))
    (h2 : j1.clean s1 env = .ok (n2, j2, s2)) :
    n2 = 0 ∧ s2 = s1 := by
  have hQS1c : ∀ q ∈ j.get_processing_keys s, (':' : Char) ∈ q.data := by
    intro q hq
    obtain ⟨pq, _, hscan⟩ := (mem_get_processing_keys j s q).mp hq
    exact colon_mem_of_startsWith pq q ((mem_scanMatch s _ q).mp hscan).2
  obtain ⟨m, jA, sA, hcqs, hokA, hcfgA, hhA, hunchA, hkeepA, hsomeA⟩ :=
    clean_queues_spec j env s.hashes (j.get_processing_keys s) j s
      (Or.inl h0) (sameConfig_refl j) rfl hQS1c
  have e1 : j.clean s env =
      .ok (m,
        { jA with
            total_repairs :=
              if m ≠ 0 then jA.total_repairs + m else jA.total_repairs,
            cleaning_queue := "",
            pods := [],
            pods_updated_at := none },
        sA) := by
    unfold Janitor.clean
    dsimp only
    rw [hcqs]
  have h1' := e1.symm.trans h1
  simp only [Except.ok.injEq, Prod.mk.injEq] at h1'
  obtain ⟨hn1, hj1, hs1⟩ := h1'
  rw [← hj1, ← hs1] at h2
  have hok1 : PodsOk
      { jA with
          total_repairs :=
            if m ≠ 0 then jA.total_repairs + m else jA.total_repairs,
          cleaning_queue := "",
          pods := [],
          pods_updated_at := none } env := Or.inl rfl
  have hcfg1 : sameConfig
      { jA with
          total_repairs :=
            if m ≠ 0 then jA.total_repairs + m else jA.total_repairs,
          cleaning_queue := "",
          pods := [],
          pods_updated_at := none } j := hcfgA
  have hQS2c : ∀ q ∈ Janitor.get_processing_keys
      { jA with
          total_repairs :=
            if m ≠ 0 then jA.total_repairs + m else jA.total_repairs,
          cleaning_queue := "",
          pods := [],
          pods_updated_at := none } sA, (':' : Char) ∈ q.data := by
    intro q hq
    obtain ⟨pq, _, hscan⟩ := (mem_get_processing_keys _ sA q).mp hq
    exact colon_mem_of_startsWith pq q ((mem_scanMatch sA _ q).mp hscan).2
  have hkeep2 : ∀ q ∈ Janitor.get_processing_keys
      { jA with
          total_repairs :=
            if m ≠ 0 then jA.total_repairs + m else jA.total_repairs,
          cleaning_queue := "",
          pods := [],
          pods_updated_at := none } sA,
      ∀ k ∈ sA.getList q, keyKeep j env q k sA.hashes = true := by
    intro q hq k hk
    obtain ⟨pq, hpq, hscan⟩ := (mem_get_processing_keys _ sA q).mp hq
    have hqc := colon_mem_of_startsWith pq q ((mem_scanMatch sA _ q).mp hscan).2
    have hsome1 : (sA.getListOpt q).isSome :=
      Store.getListOpt_isSome_of_mem sA q k hk
    have hsome0 : (s.getListOpt q).isSome := hsomeA q hqc hsome1
    have hq1 : q ∈ j.get_processing_keys s := by
      apply (mem_get_processing_keys j s q).mpr
      refine ⟨pq, hcfgA.2.2 ▸ hpq, ?_⟩
      apply (mem_scanMatch s _ q).mpr
      refine ⟨?_, ((mem_scanMatch sA _ q).mp hscan).2⟩
      unfold Store.allKeys
      exact List.mem_append_left _ (mem_keys_of_lookup_isSome s.lists q hsome0)
    have hkk := hkeepA q hq1 k hk
    rw [hhA]
    exact hkk
  obtain ⟨jB, hcqs2⟩ :=
    clean_queues_keep_spec j env sA _ _ hok1 hcfg1 hQS2c hkeep2
  have e2 : Janitor.clean
      { jA with
          total_repairs :=
            if m ≠ 0 then jA.total_repairs + m else jA.total_repairs,
          cleaning_queue := "",
          pods := [],
          pods_updated_at := none } sA env =
      .ok (0,
        { jB with
            total_repairs :=
              if (0 : Nat) ≠ 0 then jB.total_repairs + 0 else jB.total_repairs,
            cleaning_queue := "",
            pods := [],
            pods_updated_at := none },
        sA) := by
    unfold Janitor.clean
    dsimp only
    rw [hcqs2]
  have h2' := e2.symm.trans h2
  simp only [Except.ok.injEq, Prod.mk.injEq] at h2'
  refine ⟨h2'.1.symm, ?_⟩
  rw [← hs1]
  exact h2'.2.2.symm

/-! ### Concrete instances used by witnesses -/

/-- A simple decimal parser used by the concrete witness environments (a
stand-in for the external timestamp parser that reduces well in the
kernel). -/
def parseDigits (s : String) : Int :=
  Int.ofNat (s.data.foldl (fun acc c => acc * 10 + (c.toNat - 48)) 0)

/-- A concrete environment: fixed clock, a parser reading the timestamp
string as an integer, and a healthy cluster with one running pod. -/
def envW : Env :=
  { now := 10000,
    parse := parseDigits,
    api := .ok [("pod-0", "Running")] }

/-- A concrete environment whose cluster API call fails. -/
def envFail : Env :=
  { now := 10000, parse := parseDigits, api := .error () }

/-- A concrete janitor watching queue `q`, currently sweeping
`processing-q:pod-0`. -/
def jW : Janitor :=
  { Janitor.init "q" with cleaning_queue := "processing-q:pod-0" }

/-- A concrete janitor sweeping a queue whose worker is gone. -/
def jGone : Janitor :=
  { Janitor.init "q" with cleaning_queue := "processing-q:pod-gone" }

/-! ### Claim theorems -/

/-- Past the freshness guard and starting from an unrefreshed snapshot,
`should_clean_key` refreshes the snapshot and answers by the pod's
validity in the fresh cluster listing. -/
theorem Janitor.should_clean_key_fresh_snapshot (j : Janitor) (env : Env)
    (key : String) (ts : Option String)
    (h0 : j.pods_updated_at = none)
    (hage : j.pod_refresh_interval * 3 < Janitor.timestamp_to_age env ts) :
    j.should_clean_key env key ts =
      .ok (!((dictGet (list_pod_for_all_namespaces env)
               (podNameOfQueue j.cleaning_queue)).any
              (fun ph => j.valid_pod_phases.contains ph)),
           j.update_pods_force env) := by
  have hup : j.update_pods env = .ok (j.update_pods_force env) :=
    j.update_pods_of_none env h0
  have hvalid : j.is_valid_pod env (podNameOfQueue j.cleaning_queue) =
      .ok ((dictGet (list_pod_for_all_namespaces env)
              (podNameOfQueue j.cleaning_queue)).any
             (fun ph => j.valid_pod_phases.contains ph),
           j.update_pods_force env) := by
    unfold Janitor.is_valid_pod
    rw [hup]
    rfl
  unfold Janitor.should_clean_key
  rw [if_neg (by omega), hvalid]
  dsimp only
  cases hany : (dictGet (list_pod_for_all_namespaces env)
      (podNameOfQueue j.cleaning_queue)).any
      (fun ph => j.valid_pod_phases.contains ph) <;> rfl

/-- `should_clean_key` never reads `stale_time`: running it with the field
set to `a` gives the same verdict and the same state evolution, the
returned janitor merely carrying `a` in that field. -/
theorem Janitor.should_clean_key_stale_time_update (j : Janitor) (env : Env)
    (key : String) (ts : Option String) (a : Int) :
    Janitor.should_clean_key { j with stale_time := a } env key ts =
      (j.should_clean_key env key ts).map
        (fun p => (p.1, { p.2 with stale_time := a })) := by
  have hv : Janitor.is_valid_pod { j with stale_time := a } env
      (podNameOfQueue j.cleaning_queue) =
      (j.is_valid_pod env (podNameOfQueue j.cleaning_queue)).map
        (fun p => (p.1, { p.2 with stale_time := a })) := by
    unfold Janitor.is_valid_pod Janitor.update_pods
    dsimp only
    cases hts : j.pods_updated_at with
    | none => rfl
    | some tv =>
      cases tv with
      | corrupt => rfl
      | dt t =>
        dsimp only
        by_cases hc : env.now - t > j.pod_refresh_interval
        · rw [if_pos hc, if_pos hc]
          rfl
        · rw [if_neg hc, if_neg hc, ← hts]
          rfl
  unfold Janitor.should_clean_key
  dsimp only
  split
  · rfl
  · rw [hv]
    cases j.is_valid_pod env (podNameOfQueue j.cleaning_queue) with
    | error e => rfl
    | ok p =>
      obtain ⟨v, j1⟩ := p
      dsimp only [Except.map]
      split
      · rfl
      · rfl

/-- `should_clean_key` never reads `whitelisted_pods`: same statement with
that field replaced. -/
theorem Janitor.should_clean_key_whitelist_update (j : Janitor) (env : Env)
    (key : String) (ts : Option String) (w : List String) :
    Janitor.should_clean_key { j with whitelisted_pods := w } env key ts =
      (j.should_clean_key env key ts).map
        (fun p => (p.1, { p.2 with whitelisted_pods := w })) := by
  have hv : Janitor.is_valid_pod { j with whitelisted_pods := w } env
      (podNameOfQueue j.cleaning_queue) =
      (j.is_valid_pod env (podNameOfQueue j.cleaning_queue)).map
        (fun p => (p.1, { p.2 with whitelisted_pods := w })) := by
    unfold Janitor.is_valid_pod Janitor.update_pods
    dsimp only
    cases hts : j.pods_updated_at with
    | none => rfl
    | some tv =>
      cases tv with
      | corrupt => rfl
      | dt t =>
        dsimp only
        by_cases hc : env.now - t > j.pod_refresh_interval
        · rw [if_pos hc, if_pos hc]
          rfl
        · rw [if_neg hc, if_neg hc, ← hts]
          rfl
  unfold Janitor.should_clean_key
  dsimp only
  split
  · rfl
  · rw [hv]
    cases j.is_valid_pod env (podNameOfQueue j.cleaning_queue) with
    | error e => rfl
    | ok p =>
      obtain ⟨v, j1⟩ := p
      dsimp only [Except.map]
      split
      · rfl
      · rfl

/-- C1 counterexample: with `stale_time = -1` (disabled), an old record
owned by a missing worker is still classified for cleaning — the claim
that a non-positive `stale_time` makes `should_clean_key` always return
false is refuted at this input. -/
theorem stale_time_disabled_still_cleans :
    Janitor.stale_time { jGone with stale_time := -1 } ≤ 0 ∧
    Janitor.should_clean_key { jGone with stale_time := -1 } envW "k"
        (some "100") =
      .ok (true,
        Janitor.update_pods_force { jGone with stale_time := -1 } envW) :=
  ⟨by decide, by decide⟩

/-- C1 (amended): a non-positive staleness threshold makes
`is_stale_update_time` return false, but `should_clean_key` does not
consult `stale_time` at all (the staleness check is commented out in the
source): its outcome is the same for every value of the field. -/
theorem stale_time_not_consulted (j : Janitor) (env : Env) (key : String)
    (ts : Option String) :
    (j.stale_time ≤ 0 → j.is_stale_update_time env ts none = false) ∧
    (∀ a : Int,
      Janitor.should_clean_key { j with stale_time := a } env key ts =
        (j.should_clean_key env key ts).map
          (fun p => (p.1, { p.2 with stale_time := a }))) := by
  refine ⟨fun h => ?_, fun a => j.should_clean_key_stale_time_update env key ts a⟩
  unfold Janitor.is_stale_update_time
  dsimp only
  by_cases ht : (!truthy ts) = true
  · rw [if_pos ht]
  · rw [if_neg ht, if_pos h]

/-- C1 witness: the amended statement evaluated at a disabled threshold
and at a concrete classification. -/
theorem stale_time_not_consulted_witness :
    Janitor.is_stale_update_time { jGone with stale_time := -1 } envW
        (some "100") none = false ∧
    Janitor.should_clean_key { jGone with stale_time := -1 } envW "k"
        (some "100") =
      (jGone.should_clean_key envW "k" (some "100")).map
        (fun p => (p.1, { p.2 with stale_time := -1 })) :=
  ⟨(stale_time_not_consulted { jGone with stale_time := -1 } envW "k"
      (some "100")).1 (by decide),
   (stale_time_not_consulted jGone envW "k" (some "100")).2 (-1)⟩

/-- A janitor sweeping a queue owned by a whitelisted worker, and a
cluster in which that worker is alive and `Running`. -/
def jWhite : Janitor :=
  { Janitor.init "q" with cleaning_queue := "processing-q:zip-consumer-1" }

/-- The environment for the whitelisted-worker scenario. -/
def envWhite : Env :=
  { now := 10000, parse := parseDigits,
    api := .ok [("zip-consumer-1", "Running")] }

/-- C2 counterexample: the worker owning the queue is whitelisted and the
record is far past the freshness guard, yet `should_clean_key` returns
false because the pod is `Running` — the claimed unconditional true for
whitelisted workers is refuted at this input. -/
theorem whitelisted_running_not_cleaned :
    jWhite.is_whitelisted (podNameOfQueue jWhite.cleaning_queue) = true ∧
    jWhite.pod_refresh_interval * 3 <
      Janitor.timestamp_to_age envWhite (some "100") ∧
    jWhite.should_clean_key envWhite "k" (some "100") =
      .ok (false, jWhite.update_pods_force envWhite) :=
  ⟨by decide, by decide, by decide⟩

/-- C2 (amended): `is_whitelisted` holds exactly of identities starting
with a whitelisted prefix, but `should_clean_key` never consults the
whitelist: its outcome is invariant under the `whitelisted_pods` field,
and a whitelisted worker that is alive in an accepted phase yields false
(no repair) just like any other live worker. -/
theorem whitelist_not_consulted (j : Janitor) (env : Env) (key : String)
    (ts : Option String) :
    (∀ w : List String,
      Janitor.should_clean_key { j with whitelisted_pods := w } env key ts =
        (j.should_clean_key env key ts).map
          (fun p => (p.1, { p.2 with whitelisted_pods := w }))) ∧
    (j.pods_updated_at = none →
     j.pod_refresh_interval * 3 < Janitor.timestamp_to_age env ts →
     j.is_whitelisted (podNameOfQueue j.cleaning_queue) = true →
     ∀ ph, dictGet (list_pod_for_all_namespaces env)
         (podNameOfQueue j.cleaning_queue) = some ph →
       j.valid_pod_phases.contains ph = true →
       j.should_clean_key env key ts = .ok (false, j.update_pods_force env)) := by
  refine ⟨fun w => j.should_clean_key_whitelist_update env key ts w,
          fun h0 hage hwl ph hsome hmem => ?_⟩
  rw [j.should_clean_key_fresh_snapshot env key ts h0 hage, hsome]
  simp only [Option.any, hmem]
  rfl

/-- C2 witness: the amended statement at the whitelisted `Running` worker
scenario. -/
theorem whitelist_not_consulted_witness :
    Janitor.should_clean_key { jWhite with whitelisted_pods := [] } envWhite
        "k" (some "100") =
      (jWhite.should_clean_key envWhite "k" (some "100")).map
        (fun p => (p.1, { p.2 with whitelisted_pods := [] })) ∧
    jWhite.should_clean_key envWhite "k" (some "100") =
      .ok (false, jWhite.update_pods_force envWhite) :=
  ⟨(whitelist_not_consulted jWhite envWhite "k" (some "100")).1 [],
   (whitelist_not_consulted jWhite envWhite "k" (some "100")).2 (by decide)
      (by decide) (by decide) "Running" (by decide) (by decide)⟩

/-- C3: a queue entry whose record has no retrievable hash fields (all of
`status`, `updated_at`, `updated_by` falsy) is removed from its processing
queue — exactly one occurrence — and reported cleaned (true), with the
janitor state untouched. -/
theorem clean_key_malformed_removed (j : Janitor) (s : Store) (env : Env)
    (key : String)
    (h1 : truthy (s.hmget3 key).1 = false)
    (h2 : truthy (s.hmget3 key).2.1 = false)
    (h3 : truthy (s.hmget3 key).2.2 = false)
    (hin : key ∈ s.getList j.cleaning_queue) :
    j.clean_key s env key =
      .ok (true, j,
        s.setList j.cleaning_queue ((s.getList j.cleaning_queue).erase key)) ∧
    (s.setList j.cleaning_queue
        ((s.getList j.cleaning_queue).erase key)).getList j.cleaning_queue =
      (s.getList j.cleaning_queue).erase key ∧
    ((s.getList j.cleaning_queue).erase key).count key + 1 =
      (s.getList j.cleaning_queue).count key := by
  refine ⟨?_, s.getList_setList_self _ _, ?_⟩
  · have hrm : j.remove_key_from_queue s key =
        (s.setList j.cleaning_queue ((s.getList j.cleaning_queue).erase key),
         true) := by
      unfold Janitor.remove_key_from_queue
      exact s.lrem1_of_mem _ _ hin
    unfold Janitor.clean_key
    rw [hrm]
    dsimp only
    rw [h1, h2, h3]
    rfl
  · rw [List.count_erase_self]
    have hpos := List.count_pos_iff.mpr hin
    omega

/-- C3 witness: an entry whose record exists but carries no usable fields
is dropped from its queue and counted once. -/
theorem clean_key_malformed_removed_witness :
    Janitor.clean_key jGone
      (Store.mk [("badkey", ⟨none, none, none⟩)]
                [("processing-q:pod-gone", ["badkey"])]) envW "badkey" =
      .ok (true, jGone,
        Store.mk [("badkey", ⟨none, none, none⟩)]
                 [("processing-q:pod-gone", [])]) :=
  (clean_key_malformed_removed jGone
      (Store.mk [("badkey", ⟨none, none, none⟩)]
                [("processing-q:pod-gone", ["badkey"])]) envW "badkey"
      (by decide) (by decide) (by decide) (by decide)).1

/-- C4: a readable record with unfinished status that `should_clean_key`
marks for cleaning is repaired: `clean_key` reports true, afterwards the
key sits on the originating work queue and is gone from the processing
queue it was found on (given the entry appeared exactly once there, and
the derived source queue is a different key); moreover the push happens
only if the removal succeeded — if the entry is already gone,
`repair_redis_key` is a no-op returning false. -/
theorem clean_key_repairs_unfinished (j : Janitor) (s : Store) (env : Env)
    (key : String) (j1 : Janitor)
    (hsrc : sourceQueueOfQueue j.cleaning_queue ≠ j.cleaning_queue)
    (hrec : (truthy (s.hmget3 key).1 || truthy (s.hmget3 key).2.1 ||
             truthy (s.hmget3 key).2.2) = true)
    (hstatus : finishedStatus (s.hmget3 key).1 = false)
    (hdecide : j.should_clean_key env key (s.hmget3 key).2.1 = .ok (true, j1))
    (hcount : (s.getList j.cleaning_queue).count key = 1) :
    (∃ s', j.clean_key s env key = .ok (true, j1, s') ∧
        key ∈ s'.getList (sourceQueueOfQueue j.cleaning_queue) ∧
        key ∉ s'.getList j.cleaning_queue) ∧
    (∀ s0 : Store, key ∉ s0.getList j1.cleaning_queue →
        j1.repair_redis_key s0 key = (false, s0)) := by
  have hq1 : j1.cleaning_queue = j.cleaning_queue := by
    rcases j.should_clean_key_ok_state env key _ true j1 hdecide with h | h <;>
      rw [h] <;> rfl
  have hin : key ∈ s.getList j.cleaning_queue :=
    List.count_pos_iff.mp (by omega)
  constructor
  · -- the store after removal from the processing queue
    set s1 : Store :=
      s.setList j.cleaning_queue ((s.getList j.cleaning_queue).erase key) with hs1
    have hrm : j1.remove_key_from_queue s key = (s1, true) := by
      unfold Janitor.remove_key_from_queue
      rw [hq1]
      exact s.lrem1_of_mem _ _ hin
    have hrep : j1.repair_redis_key s key =
        (true, s1.lpush (sourceQueueOfQueue j.cleaning_queue) key) := by
      unfold Janitor.repair_redis_key
      rw [hrm, hq1]
      rfl
    refine ⟨s1.lpush (sourceQueueOfQueue j.cleaning_queue) key, ?_, ?_, ?_⟩
    · unfold Janitor.clean_key
      dsimp only
      split
      next hcond0 => rw [hrec] at hcond0; simp at hcond0
      next hcond0 =>
        rw [hdecide]
        dsimp only
        rw [if_pos rfl]
        split
        next hfin => rw [hstatus] at hfin; simp at hfin
        next hfin =>
          rw [hrep]
    · unfold Store.lpush
      rw [Store.getList_setList_self]
      exact List.mem_cons_self _ _
    · unfold Store.lpush
      rw [Store.getList_setList_ne _ _ _ _ (Ne.symm hsrc)]
      rw [hs1, Store.getList_setList_self]
      intro hmem
      have := List.count_pos_iff.mpr hmem
      rw [List.count_erase_self] at this
      omega
  · intro s0 h0
    unfold Janitor.repair_redis_key Janitor.remove_key_from_queue
    rw [s0.lrem1_of_not_mem _ _ h0]
    rfl

/-- C4 witness: a stranded `new` record in `processing-q:pod-gone` is
moved back onto the work queue `q`. -/
theorem clean_key_repairs_unfinished_witness :
    (∃ s', Janitor.clean_key jGone
        (Store.mk [("job1", ⟨some "new", some "100", some "pod-gone"⟩)]
                  [("processing-q:pod-gone", ["job1"])]) envW "job1" =
          .ok (true, jGone.update_pods_force envW, s') ∧
        "job1" ∈ s'.getList "q" ∧
        "job1" ∉ s'.getList "processing-q:pod-gone") ∧
    (∀ s0 : Store, "job1" ∉ s0.getList (jGone.update_pods_force envW).cleaning_queue →
        (jGone.update_pods_force envW).repair_redis_key s0 "job1" = (false, s0)) :=
  clean_key_repairs_unfinished jGone
    (Store.mk [("job1", ⟨some "new", some "100", some "pod-gone"⟩)]
              [("processing-q:pod-gone", ["job1"])]) envW "job1"
    (jGone.update_pods_force envW)
    (by decide) (by decide) (by decide) (by decide) (by decide)

/-- A store with one stranded unfinished record, used to witness the
idempotence theorem. -/
def sIdem : Store :=
  { hashes := [("job1", ⟨some "new", some "100", some "gone"⟩)],
    lists := [("processing-q:pod-gone", ["job1"])] }

/-- The same store after one sweep: the entry was repaired onto the work
queue. -/
def sIdem1 : Store :=
  { hashes := [("job1", ⟨some "new", some "100", some "gone"⟩)],
    lists := [("processing-q:pod-gone", []), ("q", ["job1"])] }

/-- C5 witness: a first sweep that repairs one stranded record, followed
by a second sweep over the same world, which cleans zero keys and leaves
the store alone. -/
theorem clean_idempotent_witness : (0 : Nat) = 0 ∧ sIdem1 = sIdem1 :=
  clean_idempotent (Janitor.init "q") sIdem envW rfl 1 0
    { Janitor.init "q" with total_repairs := 1 }
    { Janitor.init "q" with total_repairs := 1 }
    sIdem1 sIdem1 (by decide) (by decide)

/-- C6: for every queue entry whose record age is at most
`pod_refresh_interval * 3`, `should_clean_key` returns false (leaving the
janitor untouched) regardless of worker state; in particular a missing
`updated_at` (`None`) gives age 0, hence false, whenever
`pod_refresh_interval` is non-negative. -/
theorem should_clean_key_fresh_false (j : Janitor) (env : Env) (key : String) :
    (∀ ts : Option String,
        Janitor.timestamp_to_age env ts ≤ j.pod_refresh_interval * 3 →
        j.should_clean_key env key ts = .ok (false, j)) ∧
    (0 ≤ j.pod_refresh_interval →
        j.should_clean_key env key none = .ok (false, j)) := by
  have main : ∀ ts : Option String,
      Janitor.timestamp_to_age env ts ≤ j.pod_refresh_interval * 3 →
      j.should_clean_key env key ts = .ok (false, j) := by
    intro ts h
    unfold Janitor.should_clean_key
    rw [if_pos h]
  refine ⟨main, fun h => main none ?_⟩
  simp only [Janitor.timestamp_to_age]
  omega

/-- C6 witness: a record 1 second old with a 5-second refresh interval is
left alone, and so is a record with no timestamp. -/
theorem should_clean_key_fresh_false_witness :
    jW.should_clean_key envW "k" (some "9999") = .ok (false, jW) ∧
    jW.should_clean_key envW "k" none = .ok (false, jW) :=
  ⟨(should_clean_key_fresh_false jW envW "k").1 (some "9999") (by decide),
   (should_clean_key_fresh_false jW envW "k").2 (by decide)⟩

/-- C7: past the freshness guard, with a freshly ensured snapshot
(no prior refresh, so `is_valid_pod` forces one), a worker absent from the
cluster listing makes `should_clean_key` return true, and a worker whose
phase is accepted makes it return false. -/
theorem should_clean_key_liveness (j : Janitor) (env : Env) (key : String)
    (ts : Option String)
    (h0 : j.pods_updated_at = none)
    (hage : j.pod_refresh_interval * 3 < Janitor.timestamp_to_age env ts) :
    (dictGet (list_pod_for_all_namespaces env) (podNameOfQueue j.cleaning_queue) = none →
        j.should_clean_key env key ts = .ok (true, j.update_pods_force env)) ∧
    (∀ ph, dictGet (list_pod_for_all_namespaces env) (podNameOfQueue j.cleaning_queue) = some ph →
        j.valid_pod_phases.contains ph = true →
        j.should_clean_key env key ts = .ok (false, j.update_pods_force env)) := by
  refine ⟨fun hnone => ?_, fun ph hsome hmem => ?_⟩
  · rw [j.should_clean_key_fresh_snapshot env key ts h0 hage, hnone]
    rfl
  · rw [j.should_clean_key_fresh_snapshot env key ts h0 hage, hsome]
    simp only [Option.any, hmem]
    rfl

/-- C7 witness: a one-hour-old record whose queue worker is absent is
flagged for cleaning; the same record owned by the running pod is not. -/
theorem should_clean_key_liveness_witness :
    jGone.should_clean_key envW "k" (some "100") =
      .ok (true, jGone.update_pods_force envW) ∧
    jW.should_clean_key envW "k" (some "100") =
      .ok (false, jW.update_pods_force envW) :=
  ⟨(should_clean_key_liveness jGone envW "k" (some "100") (by decide) (by decide)).1
      (by decide),
   (should_clean_key_liveness jW envW "k" (some "100") (by decide) (by decide)).2
      "Running" (by decide) (by decide)⟩

/-- C8: `update_pods` refreshes exactly when no refresh happened yet or
the elapsed time strictly exceeds the refresh interval (so a non-positive
interval forces a refresh whenever any time has elapsed), and raises on a
non-timestamp `pods_updated_at` value. -/
theorem update_pods_characterization (j : Janitor) (env : Env) :
    (j.pods_updated_at = none →
        j.update_pods env = .ok (j.update_pods_force env)) ∧
    (j.pods_updated_at = some .corrupt →
        ∃ msg, j.update_pods env = .error msg) ∧
    (∀ t, j.pods_updated_at = some (.dt t) →
        j.update_pods env =
          if j.pod_refresh_interval < env.now - t then
            .ok (j.update_pods_force env)
          else .ok j) ∧
    (∀ t, j.pods_updated_at = some (.dt t) → j.pod_refresh_interval ≤ 0 →
        0 < env.now - t → j.update_pods env = .ok (j.update_pods_force env)) := by
  refine ⟨fun h => j.update_pods_of_none env h, fun h => ?_, fun t h => ?_, fun t h h1 h2 => ?_⟩
  · unfold Janitor.update_pods
    rw [h]
    exact ⟨_, rfl⟩
  · unfold Janitor.update_pods
    rw [h]
  · unfold Janitor.update_pods
    rw [h]
    dsimp only
    rw [if_pos (by omega)]

/-- C8 witness: the three behaviours at concrete states: unset timestamp
refreshes, corrupted timestamp errors, fresh timestamp is left alone. -/
theorem update_pods_characterization_witness :
    (Janitor.init "q").update_pods envW =
      .ok ((Janitor.init "q").update_pods_force envW) ∧
    (∃ msg, Janitor.update_pods
      { Janitor.init "q" with pods_updated_at := some .corrupt } envW = .error msg) ∧
    Janitor.update_pods
      { Janitor.init "q" with pods_updated_at := some (.dt 9999) } envW =
      .ok { Janitor.init "q" with pods_updated_at := some (.dt 9999) } ∧
    Janitor.update_pods
      { Janitor.init "q" with pods_updated_at := some (.dt 9999),
                              pod_refresh_interval := 0 } envW =
      .ok (Janitor.update_pods_force
        { Janitor.init "q" with pods_updated_at := some (.dt 9999),
                                pod_refresh_interval := 0 } envW) := by
  refine ⟨(update_pods_characterization (Janitor.init "q") envW).1 rfl,
          (update_pods_characterization _ envW).2.1 rfl,
          ?_, ?_⟩
  · rw [(update_pods_characterization _ envW).2.2.1 9999 rfl]
    decide
  · exact (update_pods_characterization _ envW).2.2.2 9999 rfl (by decide) (by decide)

/-- C9: when the cluster API call fails, the refresh does not raise: the
listing degrades to empty, the snapshot becomes the empty mapping (every
worker subsequently not found, hence invalid), and the refresh timestamp
is still updated. -/
theorem api_failure_degrades (j : Janitor) (env : Env)
    (h : env.api = .error ()) :
    list_pod_for_all_namespaces env = [] ∧
    (j.update_pods_force env).pods = [] ∧
    (j.update_pods_force env).pods_updated_at = some (.dt env.now) ∧
    (∀ name, dictGet (j.update_pods_force env).pods name = none) ∧
    (∀ name, (j.update_pods_force env).is_valid_pod env name =
        .ok (false, j.update_pods_force env)) := by
  have hlist : list_pod_for_all_namespaces env = [] := by
    unfold list_pod_for_all_namespaces
    rw [h]
  have hpods : (j.update_pods_force env).pods = [] := by
    unfold Janitor.update_pods_force
    simpa using hlist
  refine ⟨hlist, hpods, rfl, fun name => ?_, fun name => ?_⟩
  · rw [hpods]
    rfl
  · unfold Janitor.is_valid_pod
    rw [j.update_pods_of_force env]
    dsimp only
    rw [hpods]
    rfl

/-- C9 witness: with a failing API the janitor's snapshot refresh yields
the empty mapping and classifies the running pod's name as invalid. -/
theorem api_failure_degrades_witness :
    ((Janitor.init "q").update_pods_force envFail).pods = [] ∧
    ((Janitor.init "q").update_pods_force envFail).is_valid_pod envFail "pod-0" =
      .ok (false, (Janitor.init "q").update_pods_force envFail) :=
  ⟨(api_failure_degrades (Janitor.init "q") envFail rfl).2.1,
   (api_failure_degrades (Janitor.init "q") envFail rfl).2.2.2.2 "pod-0"⟩

/-- C10: no janitor operation writes any job-record hash field: every
successful `clean_key` call (all paths, including repair) and every
successful `clean` sweep leaves the store's hashes — hence every record's
`status`, `updated_at` and `updated_by` — unchanged. -/
theorem janitor_never_writes_hashes (j : Janitor) (s : Store) (env : Env)
    (key : String) :
    (∀ b j' s', j.clean_key s env key = .ok (b, j', s') → s'.hashes = s.hashes) ∧
    (∀ n j' s', j.clean s env = .ok (n, j', s') → s'.hashes = s.hashes) := by
  refine ⟨fun b j' s' h => j.hashes_clean_key s env key b j' s' h, fun n j' s' h => ?_⟩
  unfold Janitor.clean at h
  simp only at h
  split at h
  · exact absurd h (by simp)
  next n1 j1 s1 h1 =>
    simp only [Except.ok.injEq, Prod.mk.injEq] at h
    rw [← h.2.2]
    exact Janitor.hashes_clean_queues _ _ _ _ _ _ _ h1

/-- C10 witness: a sweep that cleans a malformed entry leaves the (empty)
hash table unchanged. -/
theorem janitor_never_writes_hashes_witness :
    (Store.mk [] [("processing-q:pod-0", [])]).hashes =
      (Store.mk [] [("processing-q:pod-0", ["k1"])]).hashes :=
  (janitor_never_writes_hashes (Janitor.init "q")
      (Store.mk [] [("processing-q:pod-0", ["k1"])]) envW "k1").2 1
    { Janitor.init "q" with total_repairs := 1 }
    (Store.mk [] [("processing-q:pod-0", [])]) (by decide)

end RedisJanitorModel
